import Mathlib

/-!
Verification of the three algorithm modules of the Vector_path repository
against its specification.

* `fractionalKnapsack` (FractionalAllocator) — a shallow embedding of
  `src/frontend/src/components/algorithms/FractionalKnapsack.js`.
* `backwardCost` (StageGraphSolver) — a shallow embedding of the multi-stage
  graph module (`src/unnamed/part_000`).
* `nearestNeighbor` (TourHeuristic) — a shallow embedding of the TSP module
  (`src/unnamed/part_001`).

JavaScript numbers are modelled by `ℚ`; the `Infinity` sentinel used by the
graph modules is modelled by `⊤` in `WithTop ℚ` (addition in `WithTop ℚ`
absorbs `⊤` exactly as `Infinity + x = Infinity` does for the finite `x`
arising in this code, and `t < m` is `False` whenever `t = ⊤`, matching
`Infinity < m` and `NaN < m`).
-/

namespace VectorPath


/-! ## FractionalAllocator: FractionalKnapsack.js

The caller passes an array of box records with `weight` and `profit` fields. -/

/-- A caller-owned box record (`{weight, profit}`).  The optional `index` and
`name` fields of the source are presentation data: `index` is reconstructed by
`mkTemp` from the position, `name` is a display string with no effect on the
computation. -/
structure InputBox where
  weight : ℚ
  profit : ℚ
  deriving DecidableEq

/-- A record of the private working copy `temp` built by `fractionalKnapsack`:
`{index, weight, profit, ratio}` (the display `name` is dropped, see
`InputBox`). -/
structure WorkBox where
  index : ℕ
  weight : ℚ
  profit : ℚ
  ratio : ℚ
  deriving DecidableEq

/-- The copy step of `fractionalKnapsack` lines 45–51:
`boxes.map((box, index) => ({index, weight, profit, name, ratio: box.weight > 0 ? profit/weight : 0}))`.
The first argument is the running map index (`fractionalKnapsack` starts it
at 0). -/
def mkTemp : ℕ → List InputBox → List WorkBox
  | _, [] => []
  | i, b :: rest =>
    { index := i, weight := b.weight, profit := b.profit,
      ratio := if 0 < b.weight then b.profit / b.weight else 0 } :: mkTemp (i + 1) rest

/-- The swap test of `sortBoxes` lines 19–25: approach 1 swaps when
`boxes[i].weight > boxes[j].weight`, approach 2 when
`boxes[i].profit < boxes[j].profit`, approach 3 when
`boxes[i].ratio < boxes[j].ratio`; any other approach never swaps. -/
def swapCondition (approach : ℕ) (bi bj : WorkBox) : Bool :=
  if approach = 1 then decide (bj.weight < bi.weight)
  else if approach = 2 then decide (bi.profit < bj.profit)
  else if approach = 3 then decide (bi.ratio < bj.ratio)
  else false

/-- One iteration of the outer loop of `sortBoxes` (lines 16–32) at a fixed
`i`, as a pass over the suffix `a[i+1..]`: the first component is the value
left at position `i` after the pass (the running "best" element `c`), the
second is the suffix after the pass (whenever the source swaps `a[i]` and
`a[j]`, the old `a[i]` stays at position `j`). -/
def innerPass (s : WorkBox → WorkBox → Bool) :
    WorkBox → List WorkBox → WorkBox × List WorkBox
  | c, [] => (c, [])
  | c, y :: rest =>
    if s c y then
      let out := innerPass s y rest
      (out.1, c :: out.2)
    else
      let out := innerPass s c rest
      (out.1, y :: out.2)

/-- The outer loop of `sortBoxes` lines 15–33: after the `i`-th outer
iteration position `i` holds the best element of the remaining suffix, and
the sort continues on the shuffled suffix.  The first argument counts the
remaining outer iterations; `innerPass` preserves length, so starting it at
the list's length (as `sortBoxes` does) always suffices. -/
def sortBoxesAux (s : WorkBox → WorkBox → Bool) : ℕ → List WorkBox → List WorkBox
  | 0, l => l
  | _ + 1, [] => []
  | k + 1, c :: rest =>
    (innerPass s c rest).1 :: sortBoxesAux s k (innerPass s c rest).2

/-- `sortBoxes` lines 12–34: the in-place exchange sort
(`for i; for j > i; swap a[i], a[j] if out of order`), written as the
function it computes on the array value. -/
def sortBoxes (s : WorkBox → WorkBox → Bool) (l : List WorkBox) : List WorkBox :=
  sortBoxesAux s l.length l

/-- One entry of `selectedBoxes`: `{...temp[i], fraction, takenWeight,
takenProfit}` (the spread of the working record is kept as the `box` field). -/
structure SelBox where
  box : WorkBox
  fraction : ℚ
  takenWeight : ℚ
  takenProfit : ℚ
  deriving DecidableEq

/-- The selection loop of `fractionalKnapsack` lines 60–87:
`for (i = 0; i < temp.length && capacity > 0; i++)`, taking each box fully
when it fits and fractionally otherwise.  Returns
`(totalProfit, selectedBoxes, capacity)` for the remaining suffix of the
sorted list. -/
def knapLoop : List WorkBox → ℚ → ℚ × List SelBox × ℚ
  | [], capacity => (0, [], capacity)
  | b :: rest, capacity =>
    if capacity ≤ 0 then (0, [], capacity)
    else if b.weight ≤ capacity then
      let out := knapLoop rest (capacity - b.weight)
      (b.profit + out.1, ⟨b, 1, b.weight, b.profit⟩ :: out.2.1, out.2.2)
    else
      let fraction := capacity / b.weight
      (b.profit * fraction, [⟨b, fraction, capacity, b.profit * fraction⟩], 0)

/-- The result record of `fractionalKnapsack` lines 92–102.  The source
formats `totalProfit` and `efficiency` with `.toFixed(2)` for display; the
model keeps the computed numbers.  `type`, `approachName` (display strings)
are dropped. -/
structure KnapResult where
  totalProfit : ℚ
  selectedBoxes : List SelBox
  usedCapacity : ℚ
  remainingCapacity : ℚ
  capacity : ℚ
  efficiency : ℚ
  approach : ℕ
  deriving DecidableEq

/-- `fractionalKnapsack(boxes, approach, truckCapacity)` lines 43–103. -/
def fractionalKnapsack (boxes : List InputBox) (approach : ℕ)
    (truckCapacity : ℚ) : KnapResult :=
  let temp := sortBoxes (swapCondition approach) (mkTemp 0 boxes)
  let out := knapLoop temp truckCapacity
  { totalProfit := out.1
    selectedBoxes := out.2.1
    usedCapacity := truckCapacity - out.2.2
    remainingCapacity := out.2.2
    capacity := truckCapacity
    efficiency := if 0 < truckCapacity then out.1 / (truckCapacity - out.2.2) else 0
    approach := approach }

/-- The call as the caller sees it: the result together with the caller-owned
array after the call.  The source copies `boxes` into fresh records
(`boxes.map` building new object literals, line 45) and every mutation
(`sortBoxes(temp)`, line 54) targets that copy, so the embedding threads the
caller's array through unchanged; had the source sorted `boxes` itself, the
second component would be the sorted array. -/
def fractionalKnapsackCall (boxes : List InputBox) (approach : ℕ)
    (truckCapacity : ℚ) : KnapResult × List InputBox :=
  (fractionalKnapsack boxes approach truckCapacity, boxes)

/-! ## StageGraphSolver: the multi-stage graph module (src/unnamed/part_000)

Matrix entries are extended costs: a rational, or the `INF = Infinity`
sentinel, modelled as `⊤ : WithTop ℚ`.  The matrix is a total function
`ℕ → ℕ → WithTop ℚ`; `backwardCost(G, n)` only ever reads `G[j][r]` for
`0 ≤ j ≤ n-2`, `j < r ≤ n-1`. -/

/-- Extended edge cost: a rational or the `Infinity` sentinel `⊤`. -/
abbrev ECost := WithTop ℚ

/-- The inner loop of `backwardCost` lines 29–40: scan the candidate next
vertices `r`, skipping `G[j][r] === INF`, computing
`total = bcost[r] + edgeCost` and updating `(minCost, nextVertex)` on
`total < minCost` (so ties keep the first-encountered `r`; a `total` of `⊤`,
which in the source is `Infinity` or `NaN`, never satisfies `total < minCost`). -/
def scanRow (G : ℕ → ℕ → ECost) (bc : ℕ → ECost) (j : ℕ) :
    List ℕ → ECost × Int → ECost × Int
  | [], acc => acc
  | r :: rs, acc =>
    if G j r = ⊤ then scanRow G bc j rs acc
    else if bc r + G j r < acc.1 then scanRow G bc j rs (bc r + G j r, (r : Int))
    else scanRow G bc j rs acc

/-- The next-vertex candidates of the scan at `j`: `r = j+1, …, n-1`
(the source's `for (let r = j + 1; r < n; r++)`). -/
def succRange (n j : ℕ) : List ℕ := List.range' (j + 1) (n - (j + 1))

/-- The backward-cost table of `backwardCost` lines 17–44, as a function of
the vertex index.  The source fills `bcost` from `j = n-2` down to `0`, each
entry reading only already-final entries `bcost[r]`, `r > j`; the first
argument is recursion fuel, and `bcostF … (n - j) j` is fully evaluated
(`bcostF_fuel_congr`).  Entries outside `0…n-1` keep the initial `INF`. -/
def bcostF (G : ℕ → ℕ → ECost) (n : ℕ) : ℕ → ℕ → ECost
  | 0, _ => ⊤
  | fuel + 1, j =>
    if j + 1 = n then 0
    else if j + 1 < n then
      (scanRow G (bcostF G n fuel) j (succRange n j) (⊤, -1)).1
    else ⊤

/-- `bcost[j]` after the backward pass. -/
def bcost (G : ℕ → ℕ → ECost) (n : ℕ) (j : ℕ) : ECost := bcostF G n n j

/-- `d[j]` after the backward pass: the arg-min vertex of the scan at `j`
(`-1` when no finite successor exists); entries the loop never writes keep
the initial `0` (line 18, `Array(n).fill(0)`). -/
def decision (G : ℕ → ℕ → ECost) (n : ℕ) (j : ℕ) : Int :=
  if j + 1 < n then (scanRow G (bcost G n) j (succRange n j) (⊤, -1)).2
  else 0

/-- The path-reconstruction loop of `backwardCost` lines 47–66:
`while (current !== n-1) { if (d[current] === -1) break; push d[current];
current = d[current] }` (the source's `current === -1` guard is dead code:
`current` is only ever `0` or a pushed `d[current] ≠ -1`).  The first `ℕ`
argument is loop fuel; `backwardCost` runs it with fuel `n`, which suffices
(`buildPath_stable`, claim C10). -/
def buildPath (d : ℕ → Int) (n : ℕ) : ℕ → ℕ → List ℕ → List ℕ
  | 0, _, p => p
  | fuel + 1, current, p =>
    if current = n - 1 then p
    else if d current = -1 then p
    else buildPath d n fuel (d current).toNat (p ++ [(d current).toNat])

/-- The result object of `backwardCost` lines 68–73. -/
structure MSGResult where
  minimumCost : ECost
  path : List ℕ
  bcostArray : List ECost
  decisionArray : List Int
  deriving DecidableEq

/-- `backwardCost(G, n)` lines 15–74. -/
def backwardCost (G : ℕ → ℕ → ECost) (n : ℕ) : MSGResult :=
  { minimumCost := bcost G n 0
    path := buildPath (decision G n) n n 0 [0]
    bcostArray := (List.range n).map (bcost G n)
    decisionArray := (List.range n).map (decision G n) }

/-- Entry lookup for a cost matrix given as a list of rows, as the JavaScript
array accesses read it: an index beyond a present row yields `undefined`,
which `edgeCost !== INF` lets through but whose `NaN` total never wins a
`total < minCost` comparison — exactly the behaviour of a `⊤` entry
(`scanRow` skips both).  This wrapper is faithful whenever rows
`0 … n-2` are present (a missing row would make the source throw a
TypeError on `G[j][r]`). -/
def entryOf (rows : List (List ECost)) (j r : ℕ) : ECost :=
  (rows.getD j []).getD r ⊤

/-- `backwardCost` on a row-list matrix (used to examine malformed,
non-square inputs whose rows are all present). -/
def backwardCostRows (rows : List (List ECost)) (n : ℕ) : MSGResult :=
  backwardCost (entryOf rows) n

/-- Total cost of a vertex sequence: the sum of the matrix entries over its
consecutive pairs (`⊤` as soon as a step uses an absent edge). -/
def pathCost (G : ℕ → ℕ → ECost) : List ℕ → ECost
  | [] => 0
  | [_] => 0
  | i :: j :: rest => G i j + pathCost G (j :: rest)

/-- The spec's worked example: 4 vertices, edges 0→1:2, 0→2:3, 1→3:4, 2→3:5. -/
def exampleMatrix : ℕ → ℕ → ECost := fun i j =>
  if i = 0 ∧ j = 1 then (2 : ℚ)
  else if i = 0 ∧ j = 2 then (3 : ℚ)
  else if i = 1 ∧ j = 3 then (4 : ℚ)
  else if i = 2 ∧ j = 3 then (5 : ℚ)
  else ⊤

/-- The invariant the backward pass guarantees for the decision array: a
written entry is `-1` or a strictly larger vertex index below `n`. -/
def DecisionInv (d : ℕ → Int) (n : ℕ) : Prop :=
  ∀ j, j + 1 < n → d j = -1 ∨ ∃ r : ℕ, d j = (r : Int) ∧ j < r ∧ r < n

/-! ## TourHeuristic: the TSP module (src/unnamed/part_001)

The distance matrix is a total function `ℕ → ℕ → WithTop ℚ` (`⊤` models an
`Infinity` entry; the entries the claims are about are finite non-negative
rationals).  `nearestNeighbor(distances, startCity)` only ever reads
`distances[i][j]` for `i, j < n`. -/

/-- The running `minDistance` of the inner scan: the pair
`(minDistance, nearestCity)` starts at `(Infinity, -1)` and its components
are only ever updated together (lines 58–66), so it is modelled as
`Option (ℚ × ℕ)` with `none` for `(Infinity, -1)`. -/
def accDist : Option (ℚ × ℕ) → WithTop ℚ
  | none => ⊤
  | some (q, _) => (q : WithTop ℚ)

/-- The inner scan of `nearestNeighbor` lines 58–67: find the nearest
unvisited city (`!visited[city] && distances[currentCity][city] <
minDistance`; ties keep the first-encountered, i.e. lowest-index, city).
The update is guarded by a strict `<` against the current `minDistance`, so
a stored distance is always finite and `untop' 0` is exact. -/
def findNearest (D : ℕ → ℕ → WithTop ℚ) (visited : ℕ → Bool) (cur : ℕ) :
    List ℕ → Option (ℚ × ℕ) → Option (ℚ × ℕ)
  | [], acc => acc
  | city :: rest, acc =>
    if visited city = false ∧ D cur city < accDist acc then
      findNearest D visited cur rest (some ((D cur city).untop' 0, city))
    else findNearest D visited cur rest acc

/-- The mutable state of `nearestNeighbor`'s main loop (lines 50–54). -/
structure NNState where
  visited : ℕ → Bool
  tour : List ℕ
  totalDistance : WithTop ℚ
  currentCity : ℕ

/-- `visited[c] = true`. -/
def markVisited (v : ℕ → Bool) (c : ℕ) : ℕ → Bool :=
  fun x => if x = c then true else v x

/-- The main loop of `nearestNeighbor` lines 57–76: `n-1` iterations, each
visiting the nearest unvisited city when one is found (`nearestCity !== -1`)
and doing nothing otherwise.  The first argument counts the remaining
iterations. -/
def nnLoop (D : ℕ → ℕ → WithTop ℚ) (n : ℕ) : ℕ → NNState → NNState
  | 0, st => st
  | step + 1, st =>
    match findNearest D st.visited st.currentCity (List.range n) none with
    | none => nnLoop D n step st
    | some (md, city) =>
      nnLoop D n step
        { visited := markVisited st.visited city
          tour := st.tour ++ [city]
          totalDistance := st.totalDistance + (md : WithTop ℚ)
          currentCity := city }

/-- The result object of `nearestNeighbor` lines 86–91. -/
structure TourResult where
  tour : List ℕ
  totalDistance : WithTop ℚ
  allVisited : Bool
  numCitiesVisited : ℕ
  deriving DecidableEq

/-- `nearestNeighbor(distances, startCity)` lines 48–92 (`tsp` calls it with
`startCity = 0`). -/
def nearestNeighbor (D : ℕ → ℕ → WithTop ℚ) (n : ℕ) (startCity : ℕ) :
    TourResult :=
  let st0 : NNState :=
    { visited := markVisited (fun _ => false) startCity
      tour := [startCity]
      totalDistance := 0
      currentCity := startCity }
  let st := nnLoop D n (n - 1) st0
  { tour := st.tour ++ [startCity]
    totalDistance := st.totalDistance + D st.currentCity startCity
    allVisited := (List.range n).all st.visited
    numCitiesVisited := ((List.range n).filter st.visited).length }

/-- Sum of the matrix distances over the consecutive pairs of a vertex
sequence. -/
def tourSum (D : ℕ → ℕ → WithTop ℚ) : List ℕ → WithTop ℚ
  | [] => 0
  | [_] => 0
  | a :: b :: rest => D a b + tourSum D (b :: rest)

/-- The loop invariant of the nearest-neighbor construction: the visited
flags coincide with tour membership, the tour is duplicate-free, within
range, starts at the start city, ends at the current city, and the
accumulated total is the sum of its consecutive distances. -/
def NNInv (D : ℕ → ℕ → WithTop ℚ) (n start : ℕ) (st : NNState) : Prop :=
  (∀ x, st.visited x = true ↔ x ∈ st.tour)
  ∧ st.tour.Nodup
  ∧ (∀ x ∈ st.tour, x < n)
  ∧ st.tour.head? = some start
  ∧ st.tour.getLast? = some st.currentCity
  ∧ st.totalDistance = tourSum D st.tour

/-- The spec's worked TSP example: 3 cities with pairwise distances
d(0,1)=10, d(0,2)=15, d(1,2)=12 (symmetric, zero elsewhere). -/
def exampleDistances : ℕ → ℕ → WithTop ℚ := fun i j =>
  if (i = 0 ∧ j = 1) ∨ (i = 1 ∧ j = 0) then ((10 : ℚ) : WithTop ℚ)
  else if (i = 0 ∧ j = 2) ∨ (i = 2 ∧ j = 0) then ((15 : ℚ) : WithTop ℚ)
  else if (i = 1 ∧ j = 2) ∨ (i = 2 ∧ j = 1) then ((12 : ℚ) : WithTop ℚ)
  else ((0 : ℚ) : WithTop ℚ)

/-! ## C2: greedy optimality of the ratio-descending ordering -/

/-- The descending-ratio order `sortBoxes` establishes under approach 3. -/
abbrev ratioGE (a b : WorkBox) : Prop := b.ratio ≤ a.ratio

instance : DecidableRel ratioGE := fun a b =>
  inferInstanceAs (Decidable (b.ratio ≤ a.ratio))

instance : IsTotal WorkBox ratioGE := ⟨fun a b => le_total b.ratio a.ratio⟩

instance : IsTrans WorkBox ratioGE := ⟨fun _ _ _ hab hbc => le_trans hbc hab⟩

/-- The boxes `fractionalKnapsack`'s working copy contains: positive weight
(when the inputs have positive weights) and `ratio = profit / weight`. -/
def GoodList (l : List WorkBox) : Prop :=
  ∀ b ∈ l, 0 < b.weight ∧ b.ratio = b.profit / b.weight

theorem innerPass_length (s : WorkBox → WorkBox → Bool) (c : WorkBox)
    (l : List WorkBox) : (innerPass s c l).2.length = l.length := by
  induction l generalizing c with
  | nil => rfl
  | cons y rest ih =>
    by_cases h : s c y = true <;> simp [innerPass, h, ih]

theorem mkTemp_length (i : ℕ) (l : List InputBox) :
    (mkTemp i l).length = l.length := by
  induction l generalizing i with
  | nil => rfl
  | cons b rest ih => simp [mkTemp, ih]

theorem sortBoxesAux_length (s : WorkBox → WorkBox → Bool) (k : ℕ)
    (l : List WorkBox) : (sortBoxesAux s k l).length = l.length := by
  induction k generalizing l with
  | zero => rfl
  | succ k ih =>
    cases l with
    | nil => rfl
    | cons c rest =>
      simp [sortBoxesAux, ih, innerPass_length]

theorem sortBoxes_length (s : WorkBox → WorkBox → Bool) (l : List WorkBox) :
    (sortBoxes s l).length = l.length := sortBoxesAux_length ..

/-- Invariant of the selection loop: with a non-negative starting capacity, the
taken weights sum to the consumed capacity, the remaining capacity is
non-negative, and a positive remaining capacity means every box of the list
was taken whole. -/
theorem knapLoop_spec (l : List WorkBox) (C : ℚ) (hC : 0 ≤ C) :
    ((knapLoop l C).2.1.map SelBox.takenWeight).sum = C - (knapLoop l C).2.2
    ∧ 0 ≤ (knapLoop l C).2.2
    ∧ (0 < (knapLoop l C).2.2 →
        (knapLoop l C).2.1 = l.map (fun b => ⟨b, 1, b.weight, b.profit⟩)) := by
  induction l generalizing C with
  | nil => simp [knapLoop, hC]
  | cons b rest ih =>
    by_cases h0 : C ≤ 0
    · have hC0 : C = 0 := le_antisymm h0 hC
      subst hC0
      simp [knapLoop]
    · by_cases hw : b.weight ≤ C
      · have hrec := ih (C - b.weight) (by linarith)
        simp only [knapLoop, if_neg h0, if_pos hw, List.map_cons, List.sum_cons]
        refine ⟨by rw [hrec.1]; ring, hrec.2.1, fun hpos => ?_⟩
        rw [hrec.2.2 hpos]
      · simp [knapLoop, if_neg h0, if_neg hw]

/-- C4: the selection never exceeds the requested capacity, and falls short of
it only when every box was taken whole (the item list was exhausted before the
capacity was filled). -/
theorem fractionalKnapsack_capacity_bound (boxes : List InputBox)
    (approach : ℕ) (C : ℚ) (hC : 0 ≤ C) :
    (((fractionalKnapsack boxes approach C).selectedBoxes.map
        SelBox.takenWeight).sum ≤ C)
    ∧ ((((fractionalKnapsack boxes approach C).selectedBoxes.map
          SelBox.takenWeight).sum ≠ C) →
        (fractionalKnapsack boxes approach C).selectedBoxes.length = boxes.length
        ∧ ∀ e ∈ (fractionalKnapsack boxes approach C).selectedBoxes,
            e.fraction = 1) := by
  have h := knapLoop_spec (sortBoxes (swapCondition approach) (mkTemp 0 boxes)) C hC
  have hres : (fractionalKnapsack boxes approach C).selectedBoxes =
      (knapLoop (sortBoxes (swapCondition approach) (mkTemp 0 boxes)) C).2.1 := rfl
  rw [hres, h.1]
  constructor
  · linarith [h.2.1]
  · intro hne
    have hpos : 0 < (knapLoop (sortBoxes (swapCondition approach)
        (mkTemp 0 boxes)) C).2.2 := by
      rcases lt_or_eq_of_le h.2.1 with h' | h'
      · exact h'
      · exact absurd (by rw [← h']; ring) hne
    rw [h.2.2 hpos]
    constructor
    · rw [List.length_map, sortBoxes_length, mkTemp_length]
    · intro e he
      rcases List.mem_map.1 he with ⟨b, _, rfl⟩
      rfl

/-- C4 witness: the spec's worked example
(items `[(w=10,v=60),(w=20,v=100),(w=15,v=120)]`, capacity 25, ratio order). -/
theorem fractionalKnapsack_capacity_bound_witness :
    (0 : ℚ) ≤ 25
    ∧ ((((fractionalKnapsack [⟨10, 60⟩, ⟨20, 100⟩, ⟨15, 120⟩] 3 25).selectedBoxes.map
          SelBox.takenWeight).sum ≤ 25)
       ∧ ((((fractionalKnapsack [⟨10, 60⟩, ⟨20, 100⟩, ⟨15, 120⟩] 3 25).selectedBoxes.map
             SelBox.takenWeight).sum ≠ 25) →
           (fractionalKnapsack [⟨10, 60⟩, ⟨20, 100⟩, ⟨15, 120⟩] 3 25).selectedBoxes.length
             = ([⟨10, 60⟩, ⟨20, 100⟩, ⟨15, 120⟩] : List InputBox).length
           ∧ ∀ e ∈ (fractionalKnapsack [⟨10, 60⟩, ⟨20, 100⟩, ⟨15, 120⟩] 3 25).selectedBoxes,
               e.fraction = 1)) :=
  ⟨by norm_num, fractionalKnapsack_capacity_bound [⟨10, 60⟩, ⟨20, 100⟩, ⟨15, 120⟩] 3 25 (by norm_num)⟩

/-- C9: a capacity of 0 yields an empty selection and a total value of 0, for
every item list and approach (the loop guard `capacity > 0` fails at once). -/
theorem fractionalKnapsack_zero_capacity (boxes : List InputBox)
    (approach : ℕ) :
    (fractionalKnapsack boxes approach 0).selectedBoxes = []
    ∧ (fractionalKnapsack boxes approach 0).totalProfit = 0 := by
  cases h : sortBoxes (swapCondition approach) (mkTemp 0 boxes) with
  | nil =>
    constructor <;> simp [fractionalKnapsack, h, knapLoop]
  | cons b rest =>
    constructor <;> simp [fractionalKnapsack, h, knapLoop]

/-- C7: the call leaves the caller-owned array (and hence each record in it)
unchanged, for every input list, approach and capacity: all reordering happens
on the private copy `temp` (see `fractionalKnapsackCall`). -/
theorem fractionalKnapsack_preserves_input (boxes : List InputBox)
    (approach : ℕ) (C : ℚ) :
    (fractionalKnapsackCall boxes approach C).2 = boxes := rfl

/-- C6, counterexample to the claim as stated: `fractionalKnapsack` performs
no input validation and raises no ValueError — a box with the non-positive
weight `-1` is processed like any other box and is even selected (taken whole,
since `-1 ≤ capacity`), producing a normal result. -/
theorem fractionalKnapsack_no_weight_validation :
    fractionalKnapsack [⟨-1, 5⟩] 3 10 =
      { totalProfit := 5
        selectedBoxes := [⟨⟨0, -1, 5, 0⟩, 1, -1, 5⟩]
        usedCapacity := -1
        remainingCapacity := 11
        capacity := 10
        efficiency := -5
        approach := 3 } := by
  norm_num [fractionalKnapsack, sortBoxes, sortBoxesAux, innerPass, mkTemp,
    knapLoop, swapCondition]

/-- C6, amended: the ratio computation never divides by zero — a box whose
weight is not positive (zero-weight boxes in particular) is assigned ratio 0,
and a positive-weight box the ratio `profit / weight`; no error is raised for
non-positive weights (the function is total and validates nothing, see
`fractionalKnapsack_no_weight_validation`). -/
theorem mkTemp_ratio (boxes : List InputBox) (i : ℕ) (b : WorkBox)
    (hb : b ∈ mkTemp i boxes) :
    (b.weight ≤ 0 → b.ratio = 0)
    ∧ (0 < b.weight → b.ratio = b.profit / b.weight) := by
  induction boxes generalizing i with
  | nil => cases hb
  | cons x rest ih =>
    rcases List.mem_cons.1 hb with rfl | hb
    · constructor
      · intro hle
        have hw : ¬ (0 : ℚ) < x.weight := not_lt.2 (by simpa using hle)
        simp [mkTemp, hw]
      · intro hlt
        have hw : (0 : ℚ) < x.weight := by simpa using hlt
        simp [mkTemp, hw]
    · exact ih _ hb

/-- C6 witness: the amended statement at a zero-weight box. -/
theorem mkTemp_ratio_witness :
    (⟨0, 0, 7, 0⟩ : WorkBox) ∈ mkTemp 0 [⟨0, 7⟩]
    ∧ (((⟨0, 0, 7, 0⟩ : WorkBox).weight ≤ 0 → (⟨0, 0, 7, 0⟩ : WorkBox).ratio = 0)
       ∧ (0 < (⟨0, 0, 7, 0⟩ : WorkBox).weight →
           (⟨0, 0, 7, 0⟩ : WorkBox).ratio =
             (⟨0, 0, 7, 0⟩ : WorkBox).profit / (⟨0, 0, 7, 0⟩ : WorkBox).weight)) :=
  ⟨by decide, mkTemp_ratio [⟨0, 7⟩] 0 ⟨0, 0, 7, 0⟩ (by decide)⟩

theorem foldlMin_le_init (l : List ECost) (a : ECost) : l.foldl min a ≤ a := by
  induction l generalizing a with
  | nil => exact le_refl a
  | cons x t ih =>
    simp only [List.foldl_cons]
    exact le_trans (ih (min a x)) (min_le_left a x)

theorem foldlMin_le {l : List ECost} (a : ECost) {x : ECost} (hx : x ∈ l) :
    l.foldl min a ≤ x := by
  induction l generalizing a with
  | nil => cases hx
  | cons y t ih =>
    simp only [List.foldl_cons]
    rcases List.mem_cons.1 hx with rfl | hx
    · exact le_trans (foldlMin_le_init t (min a x)) (min_le_right a x)
    · exact ih (min a y) hx

theorem foldlMin_mem (l : List ECost) (a : ECost) :
    l.foldl min a = a ∨ l.foldl min a ∈ l := by
  induction l generalizing a with
  | nil => exact Or.inl rfl
  | cons y t ih =>
    simp only [List.foldl_cons]
    rcases ih (min a y) with h | h
    · rw [h]
      rcases min_cases a y with ⟨he, _⟩ | ⟨he, _⟩
      · exact Or.inl he
      · exact Or.inr (by rw [he]; exact List.mem_cons_self y t)
    · exact Or.inr (List.mem_cons_of_mem y h)

/-- The running `minCost` of the scan is the `min`-fold of the candidate
totals `bcost[r] + G[j][r]` (a skipped `INF` edge contributes the absorbing
`⊤`). -/
theorem scanRow_fst (G : ℕ → ℕ → ECost) (bc : ℕ → ECost) (j : ℕ) :
    ∀ (rs : List ℕ) (acc : ECost × Int),
      (scanRow G bc j rs acc).1 =
        (rs.map (fun r => bc r + G j r)).foldl min acc.1 := by
  intro rs
  induction rs with
  | nil => intro acc; rfl
  | cons r rs ih =>
    intro acc
    by_cases hG : G j r = ⊤
    · simp only [scanRow, if_pos hG, List.map_cons, List.foldl_cons, hG, add_top]
      rw [min_eq_left le_top]
      exact ih acc
    · by_cases hlt : bc r + G j r < acc.1
      · simp only [scanRow, if_neg hG, if_pos hlt, List.map_cons, List.foldl_cons]
        rw [min_eq_right (le_of_lt hlt)]
        exact ih _
      · simp only [scanRow, if_neg hG, if_neg hlt, List.map_cons, List.foldl_cons]
        rw [min_eq_left (not_lt.1 hlt)]
        exact ih _

/-- The `nextVertex` of the scan is either the initial one or one of the
scanned candidates. -/
theorem scanRow_snd_cases (G : ℕ → ℕ → ECost) (bc : ℕ → ECost) (j : ℕ) :
    ∀ (rs : List ℕ) (acc : ECost × Int),
      (scanRow G bc j rs acc).2 = acc.2
      ∨ ∃ r ∈ rs, (scanRow G bc j rs acc).2 = (r : Int) := by
  intro rs
  induction rs with
  | nil => intro acc; exact Or.inl rfl
  | cons r rs ih =>
    intro acc
    have step : ∀ acc2 : ECost × Int,
        (scanRow G bc j rs acc2).2 = acc2.2
        ∨ ∃ r2 ∈ r :: rs, (scanRow G bc j rs acc2).2 = (r2 : Int) := by
      intro acc2
      rcases ih acc2 with h | ⟨r2, hr2, h⟩
      · exact Or.inl h
      · exact Or.inr ⟨r2, List.mem_cons_of_mem r hr2, h⟩
    by_cases hG : G j r = ⊤
    · simp only [scanRow, if_pos hG]
      exact step acc
    · by_cases hlt : bc r + G j r < acc.1
      · simp only [scanRow, if_neg hG, if_pos hlt]
        rcases step (bc r + G j r, (r : Int)) with h | h
        · exact Or.inr ⟨r, List.mem_cons_self r rs, h⟩
        · exact Or.inr h
      · simp only [scanRow, if_neg hG, if_neg hlt]
        exact step acc

/-- `minCost` and `nextVertex` are always updated together: `minCost` is
`INF` exactly when `nextVertex` is `-1`. -/
theorem scanRow_link (G : ℕ → ℕ → ECost) (bc : ℕ → ECost) (j : ℕ) :
    ∀ (rs : List ℕ) (acc : ECost × Int), (acc.1 = ⊤ ↔ acc.2 = -1) →
      ((scanRow G bc j rs acc).1 = ⊤ ↔ (scanRow G bc j rs acc).2 = -1) := by
  intro rs
  induction rs with
  | nil => intro acc h; exact h
  | cons r rs ih =>
    intro acc hacc
    by_cases hG : G j r = ⊤
    · simp only [scanRow, if_pos hG]
      exact ih acc hacc
    · by_cases hlt : bc r + G j r < acc.1
      · simp only [scanRow, if_neg hG, if_pos hlt]
        refine ih _ ?_
        constructor
        · intro h; exact absurd h hlt.ne_top
        · intro h; exact absurd h (by omega)
      · simp only [scanRow, if_neg hG, if_neg hlt]
        exact ih acc hacc

theorem scanRow_congr (G : ℕ → ℕ → ECost) (bc1 bc2 : ℕ → ECost) (j : ℕ) :
    ∀ (rs : List ℕ) (acc : ECost × Int), (∀ r ∈ rs, bc1 r = bc2 r) →
      scanRow G bc1 j rs acc = scanRow G bc2 j rs acc := by
  intro rs
  induction rs with
  | nil => intro acc _; rfl
  | cons r rs ih =>
    intro acc hbc
    have hr : bc1 r = bc2 r := hbc r (List.mem_cons_self r rs)
    have hrs : ∀ r2 ∈ rs, bc1 r2 = bc2 r2 := fun r2 h => hbc r2 (List.mem_cons_of_mem r h)
    by_cases hG : G j r = ⊤
    · simp only [scanRow, if_pos hG]
      exact ih acc hrs
    · simp only [scanRow, if_neg hG, hr]
      by_cases hlt : bc2 r + G j r < acc.1
      · simp only [if_pos hlt]
        exact ih _ hrs
      · simp only [if_neg hlt]
        exact ih acc hrs

theorem bcostF_of_le (G : ℕ → ℕ → ECost) (n : ℕ) (f j : ℕ) (hj : n ≤ j) :
    bcostF G n f j = ⊤ := by
  cases f with
  | zero => rfl
  | succ a =>
    have h1 : ¬ (j + 1 = n) := by omega
    have h2 : ¬ (j + 1 < n) := by omega
    simp [bcostF, h1, h2]

/-- Fuel is irrelevant past `n - j`: the source's backward pass finalizes
`bcost[j]` after `n - 1 - j` earlier iterations. -/
theorem bcostF_fuel_congr (G : ℕ → ℕ → ECost) (n : ℕ) :
    ∀ f1 f2 j, n - j ≤ f1 → n - j ≤ f2 → bcostF G n f1 j = bcostF G n f2 j := by
  intro f1
  induction f1 using Nat.strong_induction_on with
  | _ f1 ih =>
    intro f2 j h1 h2
    rcases Nat.lt_or_ge j n with hj | hj
    · obtain ⟨a, rfl⟩ : ∃ a, f1 = a + 1 := ⟨f1 - 1, by omega⟩
      obtain ⟨b, rfl⟩ : ∃ b, f2 = b + 1 := ⟨f2 - 1, by omega⟩
      by_cases hsink : j + 1 = n
      · simp [bcostF, hsink]
      · by_cases hlt : j + 1 < n
        · simp only [bcostF, if_neg hsink, if_pos hlt]
          rw [scanRow_congr G (bcostF G n a) (bcostF G n b) j (succRange n j) (⊤, -1) ?_]
          intro r hr
          have hrr := List.mem_range'_1.1 hr
          exact ih a (by omega) b r (by omega) (by omega)
        · omega
    · rw [bcostF_of_le G n _ j hj, bcostF_of_le G n _ j hj]

theorem bcost_sink (G : ℕ → ℕ → ECost) (n : ℕ) (hn : 0 < n) :
    bcost G n (n - 1) = 0 := by
  obtain ⟨m, rfl⟩ : ∃ m, n = m + 1 := ⟨n - 1, by omega⟩
  show bcostF G (m + 1) (m + 1) ((m + 1) - 1) = 0
  simp [bcostF]

/-- The backward recurrence the pass computes:
`bcost[j] = min over r in (j, n) of (bcost[r] + G[j][r])` (`⊤` absorbing). -/
theorem bcost_rec (G : ℕ → ℕ → ECost) (n j : ℕ) (hj : j + 1 < n) :
    bcost G n j =
      ((succRange n j).map (fun r => bcost G n r + G j r)).foldl min ⊤ := by
  obtain ⟨m, rfl⟩ : ∃ m, n = m + 1 := ⟨n - 1, by omega⟩
  show bcostF G (m + 1) (m + 1) j = _
  have hne : ¬ (j + 1 = m + 1) := by omega
  simp only [bcostF, if_neg hne, if_pos hj]
  rw [scanRow_congr G (bcostF G (m + 1) m) (bcost G (m + 1)) j (succRange (m + 1) j)
      (⊤, -1) ?_]
  · rw [scanRow_fst]
  · intro r hr
    have hrr := List.mem_range'_1.1 hr
    exact bcostF_fuel_congr G (m + 1) m (m + 1) r (by omega) (by omega)

/-- `bcost[j]` is infinite exactly when the recorded decision at `j` is the
`-1` sentinel (for the vertices the backward loop writes). -/
theorem decision_eq_neg_one_iff (G : ℕ → ℕ → ECost) (n j : ℕ) (hj : j + 1 < n) :
    decision G n j = -1 ↔ bcost G n j = ⊤ := by
  have h1 : bcost G n j = (scanRow G (bcost G n) j (succRange n j) (⊤, -1)).1 := by
    rw [bcost_rec G n j hj, scanRow_fst]
  have h2 : decision G n j = (scanRow G (bcost G n) j (succRange n j) (⊤, -1)).2 := by
    simp [decision, hj]
  rw [h1, h2]
  exact (scanRow_link G (bcost G n) j (succRange n j) (⊤, -1) (by simp)).symm

theorem decision_cases (G : ℕ → ℕ → ECost) (n j : ℕ) (hj : j + 1 < n) :
    decision G n j = -1
    ∨ ∃ r : ℕ, decision G n j = (r : Int) ∧ j < r ∧ r < n := by
  have h2 : decision G n j = (scanRow G (bcost G n) j (succRange n j) (⊤, -1)).2 := by
    simp [decision, hj]
  rcases scanRow_snd_cases G (bcost G n) j (succRange n j) (⊤, -1) with h | ⟨r, hr, h⟩
  · exact Or.inl (by rw [h2, h])
  · have hrr := List.mem_range'_1.1 hr
    exact Or.inr ⟨r, by rw [h2, h], by omega, by omega⟩

theorem le_getLast_of_chain' :
    ∀ (l : List ℕ) (m : ℕ), List.Chain' (· < ·) l → l.getLast? = some m →
      ∀ x ∈ l, x ≤ m := by
  intro l
  induction l with
  | nil => intro m _ h; cases h
  | cons a t ih =>
    intro m hch hlast x hx
    cases t with
    | nil =>
      simp only [List.getLast?_singleton, Option.some.injEq] at hlast
      rcases List.mem_singleton.1 hx with rfl
      omega
    | cons b t2 =>
      have hab : a < b := (List.chain'_cons.1 hch).1
      have hch2 : List.Chain' (· < ·) (b :: t2) := (List.chain'_cons.1 hch).2
      have hlast2 : (b :: t2).getLast? = some m := by
        rw [← hlast, List.getLast?_cons_cons]
      rcases List.mem_cons.1 hx with rfl | hx
      · have hb : b ≤ m := ih m hch2 hlast2 b (List.mem_cons_self b t2)
        omega
      · exact ih m hch2 hlast2 x hx

/-- `bcost[j]` is a lower bound on the cost of every strictly ascending
path from `j` to the sink `n-1`. -/
theorem bcost_le_pathCost (G : ℕ → ℕ → ECost) (n : ℕ) :
    ∀ k j p, n - j = k → j < n → p.head? = some j →
      List.Chain' (· < ·) p → p.getLast? = some (n - 1) →
      bcost G n j ≤ pathCost G p := by
  intro k
  induction k using Nat.strong_induction_on with
  | _ k ih =>
    intro j p hk hj hhead hch hlast
    obtain ⟨t, rfl⟩ : ∃ t, p = j :: t := by
      cases p with
      | nil => cases hhead
      | cons a t =>
        simp only [List.head?_cons, Option.some.injEq] at hhead
        exact ⟨t, by rw [hhead]⟩
    cases t with
    | nil =>
      simp only [List.getLast?_singleton, Option.some.injEq] at hlast
      rw [hlast, bcost_sink G n (by omega)]
      exact le_refl 0
    | cons r rest =>
      have hjr : j < r := (List.chain'_cons.1 hch).1
      have hcht : List.Chain' (· < ·) (r :: rest) := (List.chain'_cons.1 hch).2
      have hlast2 : (r :: rest).getLast? = some (n - 1) := by
        rw [← hlast, List.getLast?_cons_cons]
      have hrlen : r ≤ n - 1 :=
        le_getLast_of_chain' (r :: rest) (n - 1) hcht hlast2 r (List.mem_cons_self r rest)
      have hjn : j + 1 < n := by omega
      have hmem : r ∈ succRange n j := List.mem_range'_1.2 ⟨by omega, by omega⟩
      have hIH : bcost G n r ≤ pathCost G (r :: rest) :=
        ih (n - r) (by omega) r (r :: rest) rfl (by omega) rfl hcht hlast2
      calc bcost G n j ≤ bcost G n r + G j r := by
            rw [bcost_rec G n j hjn]
            exact foldlMin_le ⊤ (List.mem_map_of_mem _ hmem)
        _ ≤ pathCost G (r :: rest) + G j r := add_le_add_right hIH _
        _ = G j r + pathCost G (r :: rest) := add_comm _ _
        _ = pathCost G (j :: r :: rest) := rfl

/-- A finite `bcost[j]` is attained by a strictly ascending path from `j`
to the sink. -/
theorem bcost_attained (G : ℕ → ℕ → ECost) (n : ℕ) :
    ∀ k j, n - j = k → j < n → bcost G n j ≠ ⊤ →
      ∃ p, p.head? = some j ∧ List.Chain' (· < ·) p ∧
        p.getLast? = some (n - 1) ∧ pathCost G p = bcost G n j := by
  intro k
  induction k using Nat.strong_induction_on with
  | _ k ih =>
    intro j hk hj htop
    by_cases hsink : j = n - 1
    · subst hsink
      refine ⟨[n - 1], rfl, List.chain'_singleton _, rfl, ?_⟩
      rw [bcost_sink G n (by omega)]
      rfl
    · have hjn : j + 1 < n := by omega
      have hbj := bcost_rec G n j hjn
      rcases foldlMin_mem ((succRange n j).map fun r => bcost G n r + G j r) ⊤
        with h | h
      · exact absurd (by rw [hbj, h]) htop
      · rcases List.mem_map.1 h with ⟨r, hrmem, hfr⟩
        have hfr2 : bcost G n r + G j r = bcost G n j := by rw [hfr, ← hbj]
        have hrr := List.mem_range'_1.1 hrmem
        have hne : bcost G n r + G j r ≠ ⊤ := by rw [hfr2]; exact htop
        have hbcr : bcost G n r ≠ ⊤ := fun he => hne (by rw [he, top_add])
        rcases ih (n - r) (by omega) r rfl (by omega) hbcr with ⟨q, hqh, hqc, hql, hqcost⟩
        obtain ⟨rest, rfl⟩ : ∃ rest, q = r :: rest := by
          cases q with
          | nil => cases hqh
          | cons a rest =>
            simp only [List.head?_cons, Option.some.injEq] at hqh
            exact ⟨rest, by rw [hqh]⟩
        refine ⟨j :: r :: rest, rfl, List.chain'_cons.2 ⟨by omega, hqc⟩, ?_, ?_⟩
        · rw [List.getLast?_cons_cons]
          exact hql
        · show G j r + pathCost G (r :: rest) = bcost G n j
          rw [hqcost, add_comm, hfr2]

/-- C1: for every cost matrix and `n ≥ 2`, the returned `minimumCost` is the
minimum total cost over all strictly ascending paths from vertex `0` to
vertex `n-1`: it is a lower bound on every such path's cost, it is attained
by such a path whenever it is finite, and it is infinite exactly when no
such path of finite cost exists. -/
theorem backwardCost_minimumCost_optimal (G : ℕ → ℕ → ECost) (n : ℕ)
    (hn : 2 ≤ n) :
    (∀ p, p.head? = some 0 → List.Chain' (· < ·) p →
        p.getLast? = some (n - 1) →
        (backwardCost G n).minimumCost ≤ pathCost G p)
    ∧ ((backwardCost G n).minimumCost ≠ ⊤ →
        ∃ p, p.head? = some 0 ∧ List.Chain' (· < ·) p ∧
          p.getLast? = some (n - 1) ∧
          pathCost G p = (backwardCost G n).minimumCost)
    ∧ ((backwardCost G n).minimumCost = ⊤ ↔
        ¬ ∃ p, p.head? = some 0 ∧ List.Chain' (· < ·) p ∧
          p.getLast? = some (n - 1) ∧ pathCost G p ≠ ⊤) := by
  have hmc : (backwardCost G n).minimumCost = bcost G n 0 := rfl
  refine ⟨?_, ?_, ?_, ?_⟩
  · intro p hh hc hl
    rw [hmc]
    exact bcost_le_pathCost G n (n - 0) 0 p rfl (by omega) hh hc hl
  · intro htop
    rw [hmc] at htop ⊢
    exact bcost_attained G n (n - 0) 0 rfl (by omega) htop
  · intro htop ⟨p, hh, hc, hl, hfin⟩
    have := bcost_le_pathCost G n (n - 0) 0 p rfl (by omega) hh hc hl
    rw [hmc] at htop
    rw [htop, top_le_iff] at this
    exact hfin this
  · intro hno
    rw [hmc]
    by_contra htop
    rcases bcost_attained G n (n - 0) 0 rfl (by omega) htop
      with ⟨p, hh, hc, hl, hcost⟩
    exact hno ⟨p, hh, hc, hl, by rw [hcost]; exact htop⟩

/-- C1 witness: the optimality statement at the spec's 4-vertex example. -/
theorem backwardCost_minimumCost_optimal_witness :
    2 ≤ 4
    ∧ ((∀ p, p.head? = some 0 → List.Chain' (· < ·) p →
          p.getLast? = some (4 - 1) →
          (backwardCost exampleMatrix 4).minimumCost ≤ pathCost exampleMatrix p)
       ∧ ((backwardCost exampleMatrix 4).minimumCost ≠ ⊤ →
          ∃ p, p.head? = some 0 ∧ List.Chain' (· < ·) p ∧
            p.getLast? = some (4 - 1) ∧
            pathCost exampleMatrix p = (backwardCost exampleMatrix 4).minimumCost)
       ∧ ((backwardCost exampleMatrix 4).minimumCost = ⊤ ↔
          ¬ ∃ p, p.head? = some 0 ∧ List.Chain' (· < ·) p ∧
            p.getLast? = some (4 - 1) ∧ pathCost exampleMatrix p ≠ ⊤)) :=
  ⟨by norm_num, backwardCost_minimumCost_optimal exampleMatrix 4 (by norm_num)⟩

theorem decision_inv (G : ℕ → ℕ → ECost) (n : ℕ) :
    DecisionInv (decision G n) n :=
  fun j hj => decision_cases G n j hj

/-- Fuel `n - 1 - current` suffices for the reconstruction walk: the source's
`while` loop terminates. -/
theorem buildPath_stable (d : ℕ → Int) (n : ℕ) (hd : DecisionInv d n) :
    ∀ f1 f2 cur acc, cur < n → n - 1 - cur ≤ f1 → n - 1 - cur ≤ f2 →
      buildPath d n f1 cur acc = buildPath d n f2 cur acc := by
  intro f1
  induction f1 with
  | zero =>
    intro f2 cur acc hcur h1 h2
    have hc : cur = n - 1 := by omega
    cases f2 with
    | zero => rfl
    | succ b => simp [buildPath, hc]
  | succ a ih =>
    intro f2 cur acc hcur h1 h2
    by_cases hc : cur = n - 1
    · cases f2 with
      | zero => simp [buildPath, hc]
      | succ b => simp [buildPath, hc]
    · have hcn : cur + 1 < n := by omega
      obtain ⟨b, rfl⟩ : ∃ b, f2 = b + 1 := ⟨f2 - 1, by omega⟩
      rcases hd cur hcn with hneg | ⟨r, hr, hcr, hrn⟩
      · simp [buildPath, hc, hneg]
      · have hrne : d cur ≠ -1 := by rw [hr]; omega
        simp only [buildPath, if_neg hc, if_neg hrne]
        rw [hr, Int.toNat_ofNat]
        exact ih b r (acc ++ [r]) hrn (by omega) (by omega)

/-- Structure of the reconstruction walk: it extends its accumulator on the
right, keeps it strictly increasing and within `0…n-1`, and adds at most
`n - 1 - current` vertices. -/
theorem buildPath_props (d : ℕ → Int) (n : ℕ) (hd : DecisionInv d n) :
    ∀ f cur acc, cur < n → acc.getLast? = some cur →
      List.Chain' (· < ·) acc → (∀ x ∈ acc, x < n) →
      (buildPath d n f cur acc).head? = acc.head?
      ∧ List.Chain' (· < ·) (buildPath d n f cur acc)
      ∧ (∀ x ∈ buildPath d n f cur acc, x < n)
      ∧ (buildPath d n f cur acc).length ≤ acc.length + (n - 1 - cur) := by
  intro f
  induction f with
  | zero =>
    intro cur acc hcur hlast hch hmem
    exact ⟨rfl, hch, hmem, by show acc.length ≤ acc.length + (n - 1 - cur); omega⟩
  | succ a ih =>
    intro cur acc hcur hlast hch hmem
    by_cases hc : cur = n - 1
    · have hstop : buildPath d n (a + 1) cur acc = acc := by
        simp [buildPath, hc]
      rw [hstop]
      exact ⟨rfl, hch, hmem, by omega⟩
    · have hcn : cur + 1 < n := by omega
      rcases hd cur hcn with hneg | ⟨r, hr, hcr, hrn⟩
      · have hstop : buildPath d n (a + 1) cur acc = acc := by
          simp [buildPath, hc, hneg]
        rw [hstop]
        exact ⟨rfl, hch, hmem, by omega⟩
      · have hrne : d cur ≠ -1 := by rw [hr]; omega
        simp only [buildPath, if_neg hc, if_neg hrne]
        rw [hr, Int.toNat_ofNat]
        have hacc : acc ≠ [] := by
          intro he
          rw [he] at hlast
          cases hlast
        have hlast2 : (acc ++ [r]).getLast? = some r := List.getLast?_concat acc
        have hch2 : List.Chain' (· < ·) (acc ++ [r]) := by
          apply List.chain'_append.2
          refine ⟨hch, List.chain'_singleton r, ?_⟩
          intro x hx y hy
          rw [hlast] at hx
          simp only [Option.mem_def, Option.some.injEq] at hx
          simp only [List.head?_cons, Option.mem_def, Option.some.injEq] at hy
          omega
        have hmem2 : ∀ x ∈ acc ++ [r], x < n := by
          intro x hx
          rcases List.mem_append.1 hx with hx | hx
          · exact hmem x hx
          · rcases List.mem_singleton.1 hx with rfl
            exact hrn
        have hout := ih r (acc ++ [r]) hrn hlast2 hch2 hmem2
        refine ⟨?_, hout.2.1, hout.2.2.1, ?_⟩
        · rw [hout.1]
          exact List.head?_append_of_ne_nil acc hacc
        · have hlen := hout.2.2.2
          rw [List.length_append, List.length_singleton] at hlen
          omega

/-- C10: the reconstructed path is a strictly increasing sequence of vertex
indices starting at vertex 0, hence has at most `n` entries, and the
reconstruction loop terminates: any fuel of at least `n` yields the same
path as fuel `n`. -/
theorem backwardCost_path_structure (G : ℕ → ℕ → ECost) (n : ℕ)
    (hn : 2 ≤ n) :
    (backwardCost G n).path.head? = some 0
    ∧ List.Chain' (· < ·) (backwardCost G n).path
    ∧ (backwardCost G n).path.length ≤ n
    ∧ ∀ f, n ≤ f →
        buildPath (decision G n) n f 0 [0] = (backwardCost G n).path := by
  have hd : DecisionInv (decision G n) n := decision_inv G n
  have h0 : (0 : ℕ) < n := by omega
  have hmem0 : ∀ x ∈ [(0 : ℕ)], x < n := by
    intro x hx
    rcases List.mem_singleton.1 hx with rfl
    exact h0
  have hprops := buildPath_props (decision G n) n hd n 0 [0] h0 rfl
    (List.chain'_singleton 0) hmem0
  have hpath : (backwardCost G n).path = buildPath (decision G n) n n 0 [0] := rfl
  refine ⟨?_, by rw [hpath]; exact hprops.2.1, ?_, ?_⟩
  · rw [hpath, hprops.1]
    rfl
  · rw [hpath]
    have h2 := hprops.2.2.2
    simp only [List.length_singleton] at h2
    omega
  · intro f hf
    rw [hpath]
    exact buildPath_stable (decision G n) n hd f n 0 [0] h0 (by omega) (by omega)

/-- C10 witness: the path-structure statement at the spec's 4-vertex
example. -/
theorem backwardCost_path_structure_witness :
    2 ≤ 4
    ∧ ((backwardCost exampleMatrix 4).path.head? = some 0
       ∧ List.Chain' (· < ·) (backwardCost exampleMatrix 4).path
       ∧ (backwardCost exampleMatrix 4).path.length ≤ 4
       ∧ ∀ f, 4 ≤ f →
           buildPath (decision exampleMatrix 4) 4 f 0 [0] =
             (backwardCost exampleMatrix 4).path) :=
  ⟨by norm_num, backwardCost_path_structure exampleMatrix 4 (by norm_num)⟩

/-- C5, counterexample to the claim as stated: `backwardCost` contains no
dimension validation and raises no ShapeError.  The malformed input below
declares `n = 3` but its first row has only 2 entries (the matrix is not
3×3); the function nevertheless computes a normal result, reading the
missing entry `(0, 2)` as an absent edge. -/
theorem backwardCostRows_malformed_no_error :
    backwardCostRows [[⊤, ((5 : ℚ) : ECost)], [⊤, ⊤, ⊤], [⊤, ⊤, ⊤]] 3 =
      { minimumCost := ⊤
        path := [0]
        bcostArray := [⊤, ⊤, 0]
        decisionArray := [-1, -1, 0] } := by
  decide

/-- C5, amended: `backwardCost` never fails — it performs no shape
validation (a malformed matrix is processed with its missing entries read
as absent edges, see `backwardCostRows_malformed_no_error`), and an
unreachable sink is expressed in the returned result, never raised: when
`minimumCost` is infinite the returned path is just `[0]` and does not end
at `n - 1`. -/
theorem backwardCost_unreachable_in_result (G : ℕ → ℕ → ECost) (n : ℕ)
    (hn : 2 ≤ n) (htop : (backwardCost G n).minimumCost = ⊤) :
    (backwardCost G n).path = [0]
    ∧ (backwardCost G n).path.getLast? ≠ some (n - 1) := by
  have h01 : (0 : ℕ) + 1 < n := by omega
  have hd0 : decision G n 0 = -1 := (decision_eq_neg_one_iff G n 0 h01).2 htop
  obtain ⟨m, hm⟩ : ∃ m, n = m + 1 := ⟨n - 1, by omega⟩
  have hne : (0 : ℕ) ≠ n - 1 := by omega
  have hpath : (backwardCost G n).path = [0] := by
    show buildPath (decision G n) n n 0 [0] = [0]
    rw [hm]
    simp [buildPath, ← hm, if_neg hne, hd0]
  refine ⟨hpath, ?_⟩
  rw [hpath]
  intro h
  simp only [List.getLast?_singleton, Option.some.injEq] at h
  omega

/-- C5 witness: the amended statement at the edgeless 2-vertex matrix,
whose sink is unreachable. -/
theorem backwardCost_unreachable_in_result_witness :
    2 ≤ 2
    ∧ (backwardCost (fun _ _ => (⊤ : ECost)) 2).minimumCost = ⊤
    ∧ ((backwardCost (fun _ _ => (⊤ : ECost)) 2).path = [0]
       ∧ (backwardCost (fun _ _ => (⊤ : ECost)) 2).path.getLast? ≠ some (2 - 1)) :=
  ⟨by norm_num, by decide,
    backwardCost_unreachable_in_result (fun _ _ => (⊤ : ECost)) 2 (by norm_num)
      (by decide)⟩

theorem tourSum_concat (D : ℕ → ℕ → WithTop ℚ) :
    ∀ (l : List ℕ) (a b : ℕ), l.getLast? = some a →
      tourSum D (l ++ [b]) = tourSum D l + D a b := by
  intro l
  induction l with
  | nil => intro a b h; cases h
  | cons x t ih =>
    intro a b h
    cases t with
    | nil =>
      simp only [List.getLast?_singleton, Option.some.injEq] at h
      subst h
      show D x b + tourSum D [b] = tourSum D [x] + D x b
      show D x b + 0 = 0 + D x b
      rw [add_zero, zero_add]
    | cons y t2 =>
      rw [List.getLast?_cons_cons] at h
      show D x y + tourSum D ((y :: t2) ++ [b]) = D x y + tourSum D (y :: t2) + D a b
      rw [ih a b h, add_assoc]

/-- Once the scan has found a candidate it never returns to `(-1, Infinity)`. -/
theorem findNearest_ne_none (D : ℕ → ℕ → WithTop ℚ) (v : ℕ → Bool) (cur : ℕ) :
    ∀ (l : List ℕ) (acc : Option (ℚ × ℕ)), acc ≠ none →
      findNearest D v cur l acc ≠ none := by
  intro l
  induction l with
  | nil => intro acc h; exact h
  | cons c rest ih =>
    intro acc h
    by_cases hc : v c = false ∧ D cur c < accDist acc
    · simp only [findNearest, if_pos hc]
      exact ih _ (by simp)
    · simp only [findNearest, if_neg hc]
      exact ih acc h

/-- If the scan (started from `(-1, Infinity)`) ends with `nearestCity = -1`,
every scanned city was visited or at infinite distance. -/
theorem findNearest_none (D : ℕ → ℕ → WithTop ℚ) (v : ℕ → Bool) (cur : ℕ) :
    ∀ (l : List ℕ), findNearest D v cur l none = none →
      ∀ c ∈ l, v c = true ∨ D cur c = ⊤ := by
  intro l
  induction l with
  | nil => intro _ c hc; cases hc
  | cons c rest ih =>
    intro h x hx
    by_cases hc : v c = false ∧ D cur c < accDist (none : Option (ℚ × ℕ))
    · rw [findNearest, if_pos hc] at h
      exact absurd h (findNearest_ne_none D v cur rest _ (by simp))
    · rw [findNearest, if_neg hc] at h
      rcases List.mem_cons.1 hx with rfl | hx
      · rcases Bool.eq_false_or_eq_true (v x) with hv | hv
        · exact Or.inl hv
        · right
          by_contra htop
          exact hc ⟨hv, by
            show D cur x < accDist none
            exact lt_top_iff_ne_top.2 htop⟩
      · exact ih h x hx

/-- What a successful scan returns: either the initial accumulator, or an
unvisited scanned city together with its exact (finite) distance from the
current city. -/
theorem findNearest_spec (D : ℕ → ℕ → WithTop ℚ) (v : ℕ → Bool) (cur : ℕ) :
    ∀ (l : List ℕ) (acc : Option (ℚ × ℕ)) (q : ℚ) (c : ℕ),
      findNearest D v cur l acc = some (q, c) →
      acc = some (q, c) ∨ (c ∈ l ∧ v c = false ∧ D cur c = (q : WithTop ℚ)) := by
  intro l
  induction l with
  | nil => intro acc q c h; exact Or.inl h
  | cons x rest ih =>
    intro acc q c h
    by_cases hc : v x = false ∧ D cur x < accDist acc
    · rw [findNearest, if_pos hc] at h
      rcases ih _ q c h with heq | ⟨hmem, hv, hd⟩
      · have hne : D cur x ≠ ⊤ := hc.2.ne_top
        rcases WithTop.ne_top_iff_exists.1 hne with ⟨u, hu⟩
        simp only [Option.some.injEq, Prod.mk.injEq] at heq
        refine Or.inr ⟨?_, ?_, ?_⟩
        · rw [← heq.2]
          exact List.mem_cons_self x rest
        · rw [← heq.2]
          exact hc.1
        · rw [← heq.1, ← hu, WithTop.untop'_coe, ← heq.2, ← hu]
      · exact Or.inr ⟨List.mem_cons_of_mem x hmem, hv, hd⟩
    · rw [findNearest, if_neg hc] at h
      rcases ih acc q c h with heq | ⟨hmem, hv, hd⟩
      · exact Or.inl heq
      · exact Or.inr ⟨List.mem_cons_of_mem x hmem, hv, hd⟩

theorem nnStep_inv (D : ℕ → ℕ → WithTop ℚ) (n start : ℕ) (st : NNState)
    (hinv : NNInv D n start st) (md : ℚ) (city : ℕ)
    (hfound : findNearest D st.visited st.currentCity (List.range n) none =
      some (md, city)) :
    NNInv D n start
      { visited := markVisited st.visited city
        tour := st.tour ++ [city]
        totalDistance := st.totalDistance + (md : WithTop ℚ)
        currentCity := city } := by
  obtain ⟨hvis, hnd, hmem, hhead, hlast, htot⟩ := hinv
  rcases findNearest_spec D st.visited st.currentCity (List.range n) none md city
      hfound with h | ⟨hcity, hunvis, hdist⟩
  · cases h
  have hcityn : city < n := List.mem_range.1 hcity
  have hnotin : city ∉ st.tour := by
    intro hc
    rw [← hvis city] at hc
    rw [hc] at hunvis
    cases hunvis
  have htne : st.tour ≠ [] := by
    intro he
    rw [he] at hhead
    cases hhead
  refine ⟨?_, ?_, ?_, ?_, ?_, ?_⟩
  · intro x
    by_cases hx : x = city
    · subst hx
      simp [markVisited, List.mem_append]
    · simp only [markVisited, if_neg hx, List.mem_append, List.mem_singleton, hx,
        or_false]
      exact hvis x
  · simp only [List.nodup_append, List.nodup_singleton, List.disjoint_singleton]
    exact ⟨hnd, trivial, hnotin⟩
  · intro x hx
    rcases List.mem_append.1 hx with hx | hx
    · exact hmem x hx
    · rcases List.mem_singleton.1 hx with rfl
      exact hcityn
  · rw [List.head?_append_of_ne_nil st.tour htne]
    exact hhead
  · exact List.getLast?_concat st.tour
  · show st.totalDistance + (md : WithTop ℚ) = tourSum D (st.tour ++ [city])
    rw [tourSum_concat D st.tour st.currentCity city hlast, htot, hdist]

/-- The invariant is preserved by the whole loop (no finiteness assumption:
a skipped iteration changes nothing). -/
theorem nnLoop_inv (D : ℕ → ℕ → WithTop ℚ) (n start : ℕ) :
    ∀ (steps : ℕ) (st : NNState), NNInv D n start st →
      NNInv D n start (nnLoop D n steps st) := by
  intro steps
  induction steps with
  | zero => intro st h; exact h
  | succ k ih =>
    intro st h
    rw [nnLoop]
    rcases hfind : findNearest D st.visited st.currentCity (List.range n) none
      with _ | ⟨md, city⟩
    · exact ih st h
    · exact ih _ (nnStep_inv D n start st h md city hfind)

theorem exists_not_mem_of_length_lt (l : List ℕ) (n : ℕ) (hnd : l.Nodup)
    (_hmem : ∀ x ∈ l, x < n) (hlen : l.length < n) : ∃ c, c < n ∧ c ∉ l := by
  by_contra h
  push_neg at h
  have hsub : Finset.range n ⊆ l.toFinset := by
    intro c hc
    simpa using h c (Finset.mem_range.1 hc)
  have hcard := Finset.card_le_card hsub
  rw [Finset.card_range, List.toFinset_card_of_nodup hnd] at hcard
  omega

/-- With an all-finite distance matrix every iteration finds a city, so the
tour grows by one vertex per iteration. -/
theorem nnLoop_fin (D : ℕ → ℕ → WithTop ℚ) (n start : ℕ)
    (hfin : ∀ i j, D i j ≠ ⊤) :
    ∀ (steps : ℕ) (st : NNState), NNInv D n start st →
      st.tour.length + steps ≤ n →
      NNInv D n start (nnLoop D n steps st)
      ∧ (nnLoop D n steps st).tour.length = st.tour.length + steps := by
  intro steps
  induction steps with
  | zero => intro st h _; exact ⟨h, rfl⟩
  | succ k ih =>
    intro st h hlen
    rw [nnLoop]
    rcases hfind : findNearest D st.visited st.currentCity (List.range n) none
      with _ | ⟨md, city⟩
    · exfalso
      rcases exists_not_mem_of_length_lt st.tour n h.2.1 h.2.2.1 (by omega)
        with ⟨c, hcn, hcnot⟩
      rcases findNearest_none D st.visited st.currentCity (List.range n) hfind c
          (List.mem_range.2 hcn) with hv | htop
      · rw [h.1 c] at hv
        exact hcnot hv
      · exact hfin _ _ htop
    · have hstep := nnStep_inv D n start st h md city hfind
      have hrec := ih _ hstep (by simp; omega)
      refine ⟨hrec.1, ?_⟩
      rw [hrec.2]
      simp
      omega

theorem nnInit_inv (D : ℕ → ℕ → WithTop ℚ) (n : ℕ) (hn : 1 ≤ n) :
    NNInv D n 0
      { visited := markVisited (fun _ => false) 0
        tour := [0]
        totalDistance := 0
        currentCity := 0 } := by
  refine ⟨?_, List.nodup_singleton 0, ?_, rfl, rfl, rfl⟩
  · intro x
    by_cases hx : x = 0
    · subst hx
      simp [markVisited]
    · simp [markVisited, hx]
  · intro x hx
    rcases List.mem_singleton.1 hx with rfl
    omega

/-- C3: on an all-finite matrix of non-negative distances (n ≥ 1 cities),
the returned tour starts and ends at the start vertex 0, contains 0 exactly
twice and every other vertex exactly once, stays within `0…n-1`, and the
returned `totalDistance` is the sum of the matrix distances over the tour's
consecutive pairs. -/
theorem nearestNeighbor_tour_correct (D : ℕ → ℕ → WithTop ℚ) (n : ℕ)
    (hn : 1 ≤ n) (hfin : ∀ i j, D i j ≠ ⊤) (hnonneg : ∀ i j, 0 ≤ D i j) :
    (nearestNeighbor D n 0).tour.head? = some 0
    ∧ (nearestNeighbor D n 0).tour.getLast? = some 0
    ∧ (nearestNeighbor D n 0).tour.count 0 = 2
    ∧ (∀ v, v < n → v ≠ 0 → (nearestNeighbor D n 0).tour.count v = 1)
    ∧ (∀ v ∈ (nearestNeighbor D n 0).tour, v < n)
    ∧ (nearestNeighbor D n 0).totalDistance =
        tourSum D (nearestNeighbor D n 0).tour := by
  have _ := hnonneg
  have hloop := nnLoop_fin D n 0 hfin (n - 1)
    { visited := markVisited (fun _ => false) 0
      tour := [0], totalDistance := 0, currentCity := 0 }
    (nnInit_inv D n hn) (by simp; omega)
  set st := nnLoop D n (n - 1)
    { visited := markVisited (fun _ => false) 0
      tour := [0], totalDistance := 0, currentCity := 0 } with hst
  obtain ⟨⟨hvis, hnd, hmem, hhead, hlast, htot⟩, hlen⟩ := hloop
  have hlenn : st.tour.length = n := by
    rw [hlen]
    simp
    omega
  have hall : ∀ v, v < n → v ∈ st.tour := by
    have hsub : st.tour.toFinset ⊆ Finset.range n := by
      intro x hx
      rw [List.mem_toFinset] at hx
      exact Finset.mem_range.2 (hmem x hx)
    have heq : st.tour.toFinset = Finset.range n :=
      Finset.eq_of_subset_of_card_le hsub
        (by rw [Finset.card_range, List.toFinset_card_of_nodup hnd, hlenn])
    intro v hv
    have : v ∈ st.tour.toFinset := by
      rw [heq]
      exact Finset.mem_range.2 hv
    exact List.mem_toFinset.1 this
  have htne : st.tour ≠ [] := by
    intro he
    rw [he] at hhead
    cases hhead
  have htour : (nearestNeighbor D n 0).tour = st.tour ++ [0] := rfl
  have htotal : (nearestNeighbor D n 0).totalDistance =
      st.totalDistance + D st.currentCity 0 := rfl
  refine ⟨?_, ?_, ?_, ?_, ?_, ?_⟩
  · rw [htour, List.head?_append_of_ne_nil st.tour htne]
    exact hhead
  · rw [htour]
    exact List.getLast?_concat st.tour
  · rw [htour, List.count_append]
    rw [List.count_eq_one_of_mem hnd (hall 0 (by omega))]
    rfl
  · intro v hv hv0
    rw [htour, List.count_append]
    rw [List.count_eq_one_of_mem hnd (hall v hv)]
    simp [hv0]
  · intro v hv
    rw [htour] at hv
    rcases List.mem_append.1 hv with hv | hv
    · exact hmem v hv
    · rcases List.mem_singleton.1 hv with rfl
      omega
  · rw [htour, htotal, tourSum_concat D st.tour st.currentCity 0 hlast, htot]

theorem exampleDistances_finite : ∀ i j, exampleDistances i j ≠ ⊤ := by
  intro i j
  unfold exampleDistances
  split_ifs <;> exact WithTop.coe_ne_top

theorem exampleDistances_nonneg : ∀ i j, 0 ≤ exampleDistances i j := by
  intro i j
  unfold exampleDistances
  split_ifs <;>
      rw [show (0 : WithTop ℚ) = ((0 : ℚ) : WithTop ℚ) from rfl,
        WithTop.coe_le_coe] <;>
    norm_num

/-- C3 witness: the tour statement at the spec's 3-city example. -/
theorem nearestNeighbor_tour_correct_witness :
    (1 ≤ 3 ∧ (∀ i j, exampleDistances i j ≠ ⊤) ∧ ∀ i j, 0 ≤ exampleDistances i j)
    ∧ ((nearestNeighbor exampleDistances 3 0).tour.head? = some 0
       ∧ (nearestNeighbor exampleDistances 3 0).tour.getLast? = some 0
       ∧ (nearestNeighbor exampleDistances 3 0).tour.count 0 = 2
       ∧ (∀ v, v < 3 → v ≠ 0 →
           (nearestNeighbor exampleDistances 3 0).tour.count v = 1)
       ∧ (∀ v ∈ (nearestNeighbor exampleDistances 3 0).tour, v < 3)
       ∧ (nearestNeighbor exampleDistances 3 0).totalDistance =
           tourSum exampleDistances (nearestNeighbor exampleDistances 3 0).tour) :=
  ⟨⟨by norm_num, exampleDistances_finite, exampleDistances_nonneg⟩,
    nearestNeighbor_tour_correct exampleDistances 3 (by norm_num)
      exampleDistances_finite exampleDistances_nonneg⟩

/-- C8: the returned `allVisited` flag is `true` exactly when every vertex
was marked visited (equivalently, made it into the tour); a `false` flag is
an ordinary returned value — the function is total and raises nothing. -/
theorem nearestNeighbor_allVisited_iff (D : ℕ → ℕ → WithTop ℚ) (n : ℕ)
    (hn : 1 ≤ n) :
    (nearestNeighbor D n 0).allVisited = true ↔
      ∀ v, v < n → v ∈ (nearestNeighbor D n 0).tour := by
  have hinv := nnLoop_inv D n 0 (n - 1)
    { visited := markVisited (fun _ => false) 0
      tour := [0], totalDistance := 0, currentCity := 0 }
    (nnInit_inv D n hn)
  set st := nnLoop D n (n - 1)
    { visited := markVisited (fun _ => false) 0
      tour := [0], totalDistance := 0, currentCity := 0 } with hst
  obtain ⟨hvis, hnd, hmem, hhead, hlast, htot⟩ := hinv
  have hflag : (nearestNeighbor D n 0).allVisited = (List.range n).all st.visited :=
    rfl
  have htour : (nearestNeighbor D n 0).tour = st.tour ++ [0] := rfl
  have h0mem : 0 ∈ st.tour := List.mem_of_mem_head? (by rw [hhead]; rfl)
  rw [hflag, htour, List.all_eq_true]
  constructor
  · intro h v hv
    have := (hvis v).1 (h v (List.mem_range.2 hv))
    exact List.mem_append.2 (Or.inl this)
  · intro h v hv
    have hvn := List.mem_range.1 hv
    rcases List.mem_append.1 (h v hvn) with hm | hm
    · exact (hvis v).2 hm
    · rcases List.mem_singleton.1 hm with rfl
      exact (hvis 0).2 h0mem

/-- C8 witness: the `allVisited` statement at the spec's 3-city example. -/
theorem nearestNeighbor_allVisited_iff_witness :
    1 ≤ 3
    ∧ ((nearestNeighbor exampleDistances 3 0).allVisited = true ↔
        ∀ v, v < 3 → v ∈ (nearestNeighbor exampleDistances 3 0).tour) :=
  ⟨by norm_num, nearestNeighbor_allVisited_iff exampleDistances 3 (by norm_num)⟩

theorem knapLoop_fst_cons_le (b : WorkBox) (X Y : List WorkBox)
    (h : ∀ c, (knapLoop X c).1 ≤ (knapLoop Y c).1) (C : ℚ) :
    (knapLoop (b :: X) C).1 ≤ (knapLoop (b :: Y) C).1 := by
  by_cases h0 : C ≤ 0
  · simp [knapLoop, h0]
  · by_cases hw : b.weight ≤ C
    · simp only [knapLoop, if_neg h0, if_pos hw]
      exact add_le_add_left (h (C - b.weight)) b.profit
    · simp [knapLoop, h0, hw]

theorem knapLoop_fst_cons_congr (b : WorkBox) (X Y : List WorkBox)
    (h : ∀ c, (knapLoop X c).1 = (knapLoop Y c).1) (C : ℚ) :
    (knapLoop (b :: X) C).1 = (knapLoop (b :: Y) C).1 :=
  le_antisymm (knapLoop_fst_cons_le b X Y (fun c => le_of_eq (h c)) C)
    (knapLoop_fst_cons_le b Y X (fun c => le_of_eq (h c).symm) C)

/-- The exchange step of the greedy argument: putting the better-ratio box
first can only increase the value the selection loop collects. -/
theorem knapLoop_swap_le (x y : WorkBox) (r : List WorkBox)
    (hwx : 0 < x.weight) (hwy : 0 < y.weight)
    (hcross : x.profit * y.weight ≤ y.profit * x.weight) (C : ℚ) :
    (knapLoop (x :: y :: r) C).1 ≤ (knapLoop (y :: x :: r) C).1 := by
  by_cases h0 : C ≤ 0
  · simp [knapLoop, h0]
  have hC : 0 < C := lt_of_not_ge h0
  by_cases hx : x.weight ≤ C
  · by_cases hy : y.weight ≤ C
    · by_cases hxy : x.weight + y.weight ≤ C
      · -- both taken whole in either order
        have hy2 : y.weight ≤ C - x.weight := by linarith
        have hx2 : x.weight ≤ C - y.weight := by linarith
        have h02 : ¬ (C - x.weight ≤ 0) := by
          intro h
          have := hwy
          linarith
        have h03 : ¬ (C - y.weight ≤ 0) := by
          intro h
          have := hwx
          linarith
        simp only [knapLoop, if_neg h0, if_pos hx, if_pos hy, if_neg h02,
          if_neg h03, if_pos hy2, if_pos hx2]
        have harg : C - x.weight - y.weight = C - y.weight - x.weight := by ring
        rw [harg]
        ring_nf
        exact le_refl _
      · -- x and y overfill the capacity together: at most one is whole
        have hy2 : ¬ (y.weight ≤ C - x.weight) := by intro h; exact hxy (by linarith)
        have hx2 : ¬ (x.weight ≤ C - y.weight) := by intro h; exact hxy (by linarith)
        have hL : (knapLoop (x :: y :: r) C).1 =
            x.profit + y.profit * ((C - x.weight) / y.weight) := by
          simp only [knapLoop, if_neg h0, if_pos hx]
          by_cases h02 : C - x.weight ≤ 0
          · have hCx : C - x.weight = 0 := le_antisymm h02 (by linarith)
            rw [if_pos h02, hCx, zero_div, mul_zero]
          · rw [if_neg h02, if_neg hy2]
        have hR : (knapLoop (y :: x :: r) C).1 =
            y.profit + x.profit * ((C - y.weight) / x.weight) := by
          simp only [knapLoop, if_neg h0, if_pos hy]
          by_cases h03 : C - y.weight ≤ 0
          · have hCy : C - y.weight = 0 := le_antisymm h03 (by linarith)
            rw [if_pos h03, hCy, zero_div, mul_zero]
          · rw [if_neg h03, if_neg hx2]
        rw [hL, hR, ← sub_nonneg]
        have key : y.profit + x.profit * ((C - y.weight) / x.weight)
            - (x.profit + y.profit * ((C - x.weight) / y.weight))
            = ((x.weight + y.weight - C) * (y.profit * x.weight - x.profit * y.weight))
              / (x.weight * y.weight) := by
          field_simp
          ring
        rw [key]
        apply div_nonneg
        · apply mul_nonneg
          · linarith
          · linarith
        · positivity
    · -- y alone exceeds the capacity
      have hy2 : ¬ (y.weight ≤ C - x.weight) := by intro h; exact hy (by linarith)
      have hL : (knapLoop (x :: y :: r) C).1 =
          x.profit + y.profit * ((C - x.weight) / y.weight) := by
        simp only [knapLoop, if_neg h0, if_pos hx]
        by_cases h02 : C - x.weight ≤ 0
        · have hCx : C - x.weight = 0 := le_antisymm h02 (by linarith)
          rw [if_pos h02, hCx, zero_div, mul_zero]
        · rw [if_neg h02, if_neg hy2]
      have hR : (knapLoop (y :: x :: r) C).1 = y.profit * (C / y.weight) := by
        simp only [knapLoop, if_neg h0, if_neg hy]
      rw [hL, hR, ← sub_nonneg]
      have key : y.profit * (C / y.weight)
          - (x.profit + y.profit * ((C - x.weight) / y.weight))
          = (y.profit * x.weight - x.profit * y.weight) / y.weight := by
        field_simp
        ring
      rw [key]
      apply div_nonneg
      · linarith
      · linarith
  · by_cases hy : y.weight ≤ C
    · -- x alone exceeds the capacity
      have hx2 : ¬ (x.weight ≤ C - y.weight) := by intro h; exact hx (by linarith)
      have hL : (knapLoop (x :: y :: r) C).1 = x.profit * (C / x.weight) := by
        simp only [knapLoop, if_neg h0, if_neg hx]
      have hR : (knapLoop (y :: x :: r) C).1 =
          y.profit + x.profit * ((C - y.weight) / x.weight) := by
        simp only [knapLoop, if_neg h0, if_pos hy]
        by_cases h03 : C - y.weight ≤ 0
        · have hCy : C - y.weight = 0 := le_antisymm h03 (by linarith)
          rw [if_pos h03, hCy, zero_div, mul_zero]
        · rw [if_neg h03, if_neg hx2]
      rw [hL, hR, ← sub_nonneg]
      have key : y.profit + x.profit * ((C - y.weight) / x.weight)
          - x.profit * (C / x.weight)
          = (y.profit * x.weight - x.profit * y.weight) / x.weight := by
        field_simp
        ring
      rw [key]
      apply div_nonneg
      · linarith
      · linarith
    · -- both exceed the capacity: fractional either way
      have hL : (knapLoop (x :: y :: r) C).1 = x.profit * (C / x.weight) := by
        simp only [knapLoop, if_neg h0, if_neg hx]
      have hR : (knapLoop (y :: x :: r) C).1 = y.profit * (C / y.weight) := by
        simp only [knapLoop, if_neg h0, if_neg hy]
      rw [hL, hR, ← sub_nonneg]
      have key : y.profit * (C / y.weight) - x.profit * (C / x.weight)
          = C * (y.profit * x.weight - x.profit * y.weight)
            / (x.weight * y.weight) := by
        field_simp
        ring
      rw [key]
      apply div_nonneg
      · apply mul_nonneg
        · linarith
        · linarith
      · positivity

theorem knapLoop_swap_eq (x y : WorkBox) (r : List WorkBox)
    (hwx : 0 < x.weight) (hwy : 0 < y.weight)
    (hcross : x.profit * y.weight = y.profit * x.weight) (C : ℚ) :
    (knapLoop (x :: y :: r) C).1 = (knapLoop (y :: x :: r) C).1 :=
  le_antisymm (knapLoop_swap_le x y r hwx hwy (le_of_eq hcross) C)
    (knapLoop_swap_le y x r hwy hwx (le_of_eq hcross.symm) C)

/-- Ratio comparison is profit-per-weight comparison, for boxes whose
stored `ratio` is `profit / weight` with a positive weight. -/
theorem cross_of_ratio_le (x y : WorkBox) (hwx : 0 < x.weight)
    (hwy : 0 < y.weight) (hrx : x.ratio = x.profit / x.weight)
    (hry : y.ratio = y.profit / y.weight) (h : x.ratio ≤ y.ratio) :
    x.profit * y.weight ≤ y.profit * x.weight := by
  rw [hrx, hry] at h
  exact (div_le_div_iff₀ hwx hwy).1 h

theorem cross_of_ratio_eq (x y : WorkBox) (hwx : 0 < x.weight)
    (hwy : 0 < y.weight) (hrx : x.ratio = x.profit / x.weight)
    (hry : y.ratio = y.profit / y.weight) (h : x.ratio = y.ratio) :
    x.profit * y.weight = y.profit * x.weight := by
  rw [hrx, hry] at h
  rw [div_eq_div_iff hwx.ne' hwy.ne'] at h
  exact h

theorem mkTemp_good (boxes : List InputBox) (hw : ∀ b ∈ boxes, 0 < b.weight) :
    ∀ i, GoodList (mkTemp i boxes) := by
  induction boxes with
  | nil => intro i b hb; cases hb
  | cons x rest ih =>
    intro i b hb
    have hx : 0 < x.weight := hw x (List.mem_cons_self x rest)
    rcases List.mem_cons.1 hb with rfl | hb
    · exact ⟨by simpa using hx, by simp [mkTemp, hx]⟩
    · exact ih (fun c hc => hw c (List.mem_cons_of_mem x hc)) (i + 1) b hb

/-- Inserting the head into an already ratio-sorted tail can only increase
the collected value. -/
theorem knapLoop_le_orderedInsert (x : WorkBox) :
    ∀ (s : List WorkBox), GoodList (x :: s) → List.Sorted ratioGE s → ∀ C,
      (knapLoop (x :: s) C).1 ≤ (knapLoop (List.orderedInsert ratioGE x s) C).1 := by
  intro s
  induction s with
  | nil => intro _ _ C; exact le_refl _
  | cons y t ih =>
    intro hgood hs C
    by_cases hr : ratioGE x y
    · rw [List.orderedInsert, if_pos hr]
    · rw [List.orderedInsert, if_neg hr]
      have hgx := hgood x (List.mem_cons_self x (y :: t))
      have hgy := hgood y (List.mem_cons_of_mem x (List.mem_cons_self y t))
      have hxy : x.ratio ≤ y.ratio := le_of_not_le hr
      have hcross : x.profit * y.weight ≤ y.profit * x.weight :=
        cross_of_ratio_le x y hgx.1 hgy.1 hgx.2 hgy.2 hxy
      calc (knapLoop (x :: y :: t) C).1
          ≤ (knapLoop (y :: x :: t) C).1 :=
            knapLoop_swap_le x y t hgx.1 hgy.1 hcross C
        _ ≤ (knapLoop (y :: List.orderedInsert ratioGE x t) C).1 := by
            apply knapLoop_fst_cons_le
            intro c
            apply ih ?_ ((List.sorted_cons.1 hs).2) c
            intro b hb
            rcases List.mem_cons.1 hb with rfl | hb
            · exact hgx
            · exact hgood b
                (List.mem_cons_of_mem x (List.mem_cons_of_mem y hb))

/-- Any processing order is dominated by the fully ratio-sorted order. -/
theorem knapLoop_le_insertionSort :
    ∀ (l : List WorkBox), GoodList l → ∀ C,
      (knapLoop l C).1 ≤ (knapLoop (List.insertionSort ratioGE l) C).1 := by
  intro l
  induction l with
  | nil => intro _ C; exact le_refl _
  | cons x t ih =>
    intro hgood C
    have hgt : GoodList t := fun b hb => hgood b (List.mem_cons_of_mem x hb)
    calc (knapLoop (x :: t) C).1
        ≤ (knapLoop (x :: List.insertionSort ratioGE t) C).1 := by
          apply knapLoop_fst_cons_le
          intro c
          exact ih hgt c
      _ ≤ (knapLoop (List.orderedInsert ratioGE x (List.insertionSort ratioGE t)) C).1 := by
          apply knapLoop_le_orderedInsert x (List.insertionSort ratioGE t) ?_
            (List.sorted_insertionSort ratioGE t)
          intro b hb
          rcases List.mem_cons.1 hb with rfl | hb
          · exact hgood b (List.mem_cons_self b t)
          · exact hgt b ((List.perm_insertionSort ratioGE t).mem_iff.1 hb)
      _ = (knapLoop (List.insertionSort ratioGE (x :: t)) C).1 := rfl

/-- A box of maximal ratio can be moved to the front across an equal-ratio
prefix without changing the collected value. -/
theorem knapLoop_middle_eq (a : WorkBox) (ha : 0 < a.weight)
    (hra : a.ratio = a.profit / a.weight) :
    ∀ (pre post : List WorkBox), GoodList pre →
      (∀ b ∈ pre, b.ratio = a.ratio) → ∀ C,
      (knapLoop (pre ++ a :: post) C).1 = (knapLoop (a :: (pre ++ post)) C).1 := by
  intro pre
  induction pre with
  | nil => intro post _ _ C; rfl
  | cons p pre2 ih =>
    intro post hgood hr C
    have hgp := hgood p (List.mem_cons_self p pre2)
    have hrp : p.ratio = a.ratio := hr p (List.mem_cons_self p pre2)
    have hcross : p.profit * a.weight = a.profit * p.weight :=
      cross_of_ratio_eq p a hgp.1 ha hgp.2 hra hrp
    calc (knapLoop (p :: (pre2 ++ a :: post)) C).1
        = (knapLoop (p :: a :: (pre2 ++ post)) C).1 := by
          apply knapLoop_fst_cons_congr
          intro c
          exact ih post (fun b hb => hgood b (List.mem_cons_of_mem p hb))
            (fun b hb => hr b (List.mem_cons_of_mem p hb)) c
      _ = (knapLoop (a :: p :: (pre2 ++ post)) C).1 :=
          knapLoop_swap_eq p a (pre2 ++ post) hgp.1 ha hcross C
      _ = (knapLoop (a :: ((p :: pre2) ++ post)) C).1 := rfl

/-- Two ratio-sorted arrangements of the same boxes collect the same value. -/
theorem knapLoop_eq_of_perm_sorted :
    ∀ (k : ℕ) (l m : List WorkBox), l.length = k → GoodList l → l.Perm m →
      List.Sorted ratioGE l → List.Sorted ratioGE m → ∀ C,
      (knapLoop l C).1 = (knapLoop m C).1 := by
  intro k
  induction k using Nat.strong_induction_on with
  | _ k ih =>
    intro l m hk hgood hpm hl hm C
    cases l with
    | nil =>
      rw [hpm.nil_eq]
    | cons a l1 =>
      have ham : a ∈ m := hpm.mem_iff.1 (List.mem_cons_self a l1)
      rcases List.append_of_mem ham with ⟨pre, post, rfl⟩
      have hga := hgood a (List.mem_cons_self a l1)
      have hgoodm : GoodList (pre ++ a :: post) := fun b hb =>
        hgood b (hpm.mem_iff.2 hb)
      have hpairs := List.pairwise_append.1 hm
      have hpre_a : ∀ b ∈ pre, ratioGE b a := fun b hb =>
        hpairs.2.2 b hb a (List.mem_cons_self a post)
      have ha_l1 : ∀ b ∈ l1, ratioGE a b := (List.sorted_cons.1 hl).1
      have hpre_eq : ∀ b ∈ pre, b.ratio = a.ratio := by
        intro b hb
        have hbm : b ∈ a :: l1 := hpm.mem_iff.2 (by
          rw [List.mem_append]
          exact Or.inl hb)
        rcases List.mem_cons.1 hbm with rfl | hbm
        · rfl
        · exact le_antisymm (ha_l1 b hbm) (hpre_a b hb)
      have hgoodpre : GoodList pre := fun b hb => hgoodm b (by
        rw [List.mem_append]
        exact Or.inl hb)
      have hmid := knapLoop_middle_eq a hga.1 hga.2 pre post hgoodpre hpre_eq C
      rw [hmid]
      apply knapLoop_fst_cons_congr
      intro c
      have hperm1 : l1.Perm (pre ++ post) := by
        have h1 : (pre ++ a :: post).Perm (a :: (pre ++ post)) := List.perm_middle
        exact (hpm.trans h1).cons_inv
      have hmsorted : List.Sorted ratioGE (pre ++ post) := by
        apply List.pairwise_append.2
        refine ⟨hpairs.1, (List.pairwise_cons.1 hpairs.2.1).2, ?_⟩
        intro b hb b2 hb2
        exact hpairs.2.2 b hb b2 (List.mem_cons_of_mem a hb2)
      have hgood1 : GoodList l1 := fun b hb =>
        hgood b (List.mem_cons_of_mem a hb)
      have hl1 : List.Sorted ratioGE l1 := (List.sorted_cons.1 hl).2
      have hklen : l1.length < k := by
        rw [← hk]
        simp
      exact ih l1.length hklen l1 (pre ++ post) rfl hgood1 hperm1 hl1 hmsorted c

/-- One inner pass of the exchange sort permutes the segment it works on. -/
theorem innerPass_perm (s : WorkBox → WorkBox → Bool) :
    ∀ (l : List WorkBox) (c : WorkBox),
      (c :: l).Perm ((innerPass s c l).1 :: (innerPass s c l).2) := by
  intro l
  induction l with
  | nil => intro c; exact List.Perm.refl _
  | cons y rest ih =>
    intro c
    by_cases hs : s c y = true
    · simp only [innerPass, if_pos hs]
      exact ((ih y).cons c).trans (List.Perm.swap _ _ _)
    · simp only [innerPass, if_neg hs]
      exact (List.Perm.swap _ _ _).trans (((ih c).cons y).trans (List.Perm.swap _ _ _))

theorem sortBoxesAux_perm (s : WorkBox → WorkBox → Bool) :
    ∀ (k : ℕ) (l : List WorkBox), l.Perm (sortBoxesAux s k l) := by
  intro k
  induction k with
  | zero => intro l; exact List.Perm.refl l
  | succ k ih =>
    intro l
    cases l with
    | nil => exact List.Perm.refl []
    | cons c rest =>
      exact (innerPass_perm s rest c).trans ((ih _).cons _)

theorem sortBoxes_perm (s : WorkBox → WorkBox → Bool) (l : List WorkBox) :
    l.Perm (sortBoxes s l) := sortBoxesAux_perm s l.length l

/-- The inner pass leaves the best element (with respect to the swap test)
at the fixed position: the returned head dominates the returned suffix. -/
theorem innerPass_best (s : WorkBox → WorkBox → Bool)
    (hf : ∀ a b, s a b = false → ratioGE a b)
    (ht : ∀ a b, s a b = true → ratioGE b a) :
    ∀ (l : List WorkBox) (c : WorkBox),
      ratioGE (innerPass s c l).1 c
      ∧ ∀ x ∈ (innerPass s c l).2, ratioGE (innerPass s c l).1 x := by
  intro l
  induction l with
  | nil =>
    intro c
    exact ⟨le_refl _, by intro x hx; cases hx⟩
  | cons y rest ih =>
    intro c
    by_cases hs : s c y = true
    · simp only [innerPass, if_pos hs]
      have hyc : ratioGE y c := ht c y hs
      have hrec := ih y
      refine ⟨le_trans hyc hrec.1, ?_⟩
      intro x hx
      rcases List.mem_cons.1 hx with rfl | hx
      · exact le_trans hyc hrec.1
      · exact hrec.2 x hx
    · simp only [innerPass, if_neg hs]
      have hcy : ratioGE c y := hf c y (Bool.not_eq_true _ ▸ hs)
      have hrec := ih c
      refine ⟨hrec.1, ?_⟩
      intro x hx
      rcases List.mem_cons.1 hx with rfl | hx
      · exact le_trans hcy hrec.1
      · exact hrec.2 x hx

theorem sortBoxesAux_sorted (s : WorkBox → WorkBox → Bool)
    (hf : ∀ a b, s a b = false → ratioGE a b)
    (ht : ∀ a b, s a b = true → ratioGE b a) :
    ∀ (k : ℕ) (l : List WorkBox), l.length ≤ k →
      List.Sorted ratioGE (sortBoxesAux s k l) := by
  intro k
  induction k with
  | zero =>
    intro l hl
    obtain rfl : l = [] := List.length_eq_zero.1 (by omega)
    exact List.sorted_nil
  | succ k ih =>
    intro l hl
    cases l with
    | nil => exact List.sorted_nil
    | cons c rest =>
      show List.Sorted ratioGE
        ((innerPass s c rest).1 :: sortBoxesAux s k (innerPass s c rest).2)
      apply List.sorted_cons.2
      constructor
      · intro b hb
        have hbmem : b ∈ (innerPass s c rest).2 :=
          (sortBoxesAux_perm s k (innerPass s c rest).2).mem_iff.2 hb
        exact (innerPass_best s hf ht rest c).2 b hbmem
      · apply ih
        rw [innerPass_length]
        simpa using hl

theorem sortBoxes_sorted_approach3 (l : List WorkBox) :
    List.Sorted ratioGE (sortBoxes (swapCondition 3) l) := by
  apply sortBoxesAux_sorted (swapCondition 3) ?_ ?_ l.length l (le_refl _)
  · intro a b hs
    simp only [swapCondition] at hs
    norm_num at hs
    exact hs
  · intro a b hs
    simp only [swapCondition] at hs
    norm_num at hs
    exact le_of_lt hs

/-- C2: with positive weights, non-negative values and a non-negative
capacity, the ratio-descending ordering (approach 3) collects a total value
at least as large as the weight-ascending ordering (approach 1) and the
value-descending ordering (approach 2). -/
theorem fractionalKnapsack_ratio_optimal (boxes : List InputBox) (C : ℚ)
    (hw : ∀ b ∈ boxes, 0 < b.weight) (hp : ∀ b ∈ boxes, 0 ≤ b.profit)
    (hC : 0 ≤ C) :
    (fractionalKnapsack boxes 1 C).totalProfit ≤
      (fractionalKnapsack boxes 3 C).totalProfit
    ∧ (fractionalKnapsack boxes 2 C).totalProfit ≤
      (fractionalKnapsack boxes 3 C).totalProfit := by
  have _ := hp
  have _ := hC
  have hgoodt : GoodList (mkTemp 0 boxes) := mkTemp_good boxes hw 0
  have key : ∀ approach : ℕ,
      (fractionalKnapsack boxes approach C).totalProfit ≤
        (fractionalKnapsack boxes 3 C).totalProfit := by
    intro approach
    have hsa : (mkTemp 0 boxes).Perm (sortBoxes (swapCondition approach) (mkTemp 0 boxes)) :=
      sortBoxes_perm _ _
    have hs3 : (mkTemp 0 boxes).Perm (sortBoxes (swapCondition 3) (mkTemp 0 boxes)) :=
      sortBoxes_perm _ _
    have hgood_sa : GoodList (sortBoxes (swapCondition approach) (mkTemp 0 boxes)) :=
      fun b hb => hgoodt b (hsa.mem_iff.2 hb)
    have hval1 : (fractionalKnapsack boxes approach C).totalProfit =
        (knapLoop (sortBoxes (swapCondition approach) (mkTemp 0 boxes)) C).1 := rfl
    have hval3 : (fractionalKnapsack boxes 3 C).totalProfit =
        (knapLoop (sortBoxes (swapCondition 3) (mkTemp 0 boxes)) C).1 := rfl
    rw [hval1, hval3]
    set sa := sortBoxes (swapCondition approach) (mkTemp 0 boxes) with hsadef
    set s3 := sortBoxes (swapCondition 3) (mkTemp 0 boxes) with hs3def
    have hstep1 : (knapLoop sa C).1 ≤
        (knapLoop (List.insertionSort ratioGE sa) C).1 :=
      knapLoop_le_insertionSort sa hgood_sa C
    have hpermis : (List.insertionSort ratioGE sa).Perm s3 :=
      (List.perm_insertionSort ratioGE sa).trans (hsa.symm.trans hs3)
    have hgoodis : GoodList (List.insertionSort ratioGE sa) := fun b hb =>
      hgood_sa b ((List.perm_insertionSort ratioGE sa).mem_iff.1 hb)
    have hstep2 : (knapLoop (List.insertionSort ratioGE sa) C).1 =
        (knapLoop s3 C).1 :=
      knapLoop_eq_of_perm_sorted (List.insertionSort ratioGE sa).length
        (List.insertionSort ratioGE sa) s3 rfl hgoodis hpermis
        (List.sorted_insertionSort ratioGE sa) (sortBoxes_sorted_approach3 _) C
    rw [← hstep2]
    exact hstep1
  exact ⟨key 1, key 2⟩

/-- C2 witness: the optimality statement at the spec's worked example
(items `[(w=10,v=60),(w=20,v=100),(w=15,v=120)]`, capacity 25). -/
theorem fractionalKnapsack_ratio_optimal_witness :
    ((∀ b ∈ ([⟨10, 60⟩, ⟨20, 100⟩, ⟨15, 120⟩] : List InputBox), 0 < b.weight)
     ∧ (∀ b ∈ ([⟨10, 60⟩, ⟨20, 100⟩, ⟨15, 120⟩] : List InputBox), 0 ≤ b.profit)
     ∧ (0 : ℚ) ≤ 25)
    ∧ ((fractionalKnapsack [⟨10, 60⟩, ⟨20, 100⟩, ⟨15, 120⟩] 1 25).totalProfit ≤
        (fractionalKnapsack [⟨10, 60⟩, ⟨20, 100⟩, ⟨15, 120⟩] 3 25).totalProfit
       ∧ (fractionalKnapsack [⟨10, 60⟩, ⟨20, 100⟩, ⟨15, 120⟩] 2 25).totalProfit ≤
        (fractionalKnapsack [⟨10, 60⟩, ⟨20, 100⟩, ⟨15, 120⟩] 3 25).totalProfit) :=
  ⟨⟨by decide, by decide, by norm_num⟩,
    fractionalKnapsack_ratio_optimal [⟨10, 60⟩, ⟨20, 100⟩, ⟨15, 120⟩] 25
      (by decide) (by decide) (by norm_num)⟩

end VectorPath
